import Mathlib

/-!
Verification of the editable-region / line-description core of the
are-you-learning web application.

The definitions below are shallow embeddings of the TypeScript code in
`src/frontend/src/components/CodePlaygroundView.tsx`,
`src/frontend/src/components/CodeEditingView.tsx`, the line-description
helpers (`createLineDescriptionHoverProvider`,
`createLineDescriptionDecorations`) and the mouse-move lookup in
`src/frontend/src/features/workshops/components/WorkshopViewer.tsx`.
Line numbers are JavaScript numbers holding non-negative integers; they are
modelled as `Nat`.
-/

namespace AYL

/-! ### JavaScript string primitives

`strIncludes s pat` models `s.includes(pat)`, `jsTrim` models
`String.prototype.trim`, and `jsSplitNewline` models `s.split("\n")`. -/

/-- Characters matched by JavaScript `\s` (the ones that can occur in a
line of source text) and trimmed by `String.prototype.trim`. -/
def isJsWs (c : Char) : Bool :=
  c == ' ' || c == '\t' || c == '\n' || c == '\r' || c == '\x0b' || c == '\x0c'

/-- Substring test on character lists: true iff `needle` occurs contiguously
in the list (JavaScript `String.prototype.includes`). -/
def listIncludes (needle : List Char) : List Char → Bool
  | [] => needle.isEmpty
  | c :: rest => needle.isPrefixOf (c :: rest) || listIncludes needle rest

/-- Model of JavaScript `s.includes(pat)`. -/
def strIncludes (s pat : String) : Bool :=
  listIncludes pat.data s.data

/-- JavaScript `String.prototype.trim`: drop whitespace from both ends. -/
def jsTrimList (l : List Char) : List Char :=
  ((l.dropWhile isJsWs).reverse.dropWhile isJsWs).reverse

/-- JavaScript `String.prototype.trim` on strings. -/
def jsTrim (s : String) : String :=
  String.mk (jsTrimList s.data)

/-- JavaScript `s.split(sep)` for a single-character separator, on character lists:
always returns at least one (possibly empty) group. -/
def splitChar (sep : Char) : List Char → List (List Char)
  | [] => [[]]
  | c :: rest =>
    match splitChar sep rest with
    | [] => [[]]
    | grp :: groups =>
      if c == sep then [] :: grp :: groups else (c :: grp) :: groups

/-- Model of `code.split` at the newline separator, as used by the parse effects. -/
def jsSplitNewline (s : String) : List String :=
  (splitChar '\n' s.data).map fun l => String.mk l

/-! ### The sentinel comments and the begin-line regex

`CodePlaygroundView.tsx` recognises begin lines with
`line.match(/\/\/ @editable-begin\s*([^-]+)-\s*(.+)/)`.  `matchEditableBegin`
is a direct model of that regex: leftmost occurrence of the literal, greedy
`\s*`, a non-empty run of non-dash characters ending at the first dash after
it, then greedy `\s*` and a non-empty remainder. -/

def beginSentinel : String := "// @editable-begin"

def endSentinel : String := "// @editable-end"

/-- Match the regex tail `\s*([^-]+)-\s*(.+)` against the characters that
follow an occurrence of the begin literal, returning the two captures.
Because `[^-]` excludes the dash, a successful match always consumes
characters exactly up to the first dash of `t`; the match fails when `t`
has no dash, when the dash is its first character (the `[^-]+` capture
would be empty), or when nothing follows the dash (the `(.+)` capture
would be empty). -/
def matchTail (t : List Char) : Option (String × String) :=
  match t.findIdx? (fun c => c == '-') with
  | none => none
  | some d =>
    if d == 0 then none
    else
      let w := (t.takeWhile isJsWs).length
      let k := min w (d - 1)
      let cap1 := (t.drop k).take (d - k)
      let rest := t.drop (d + 1)
      if rest.isEmpty then none
      else
        let w2 := (rest.takeWhile isJsWs).length
        let k2 := min w2 (rest.length - 1)
        some (String.mk cap1, String.mk (rest.drop k2))

/-- Scan for the leftmost occurrence of the begin literal whose tail also
matches; on failure at one occurrence the regex engine moves on to the
next one. -/
def findBeginMatch : List Char → Option (String × String)
  | [] => none
  | c :: rest =>
    if beginSentinel.data.isPrefixOf (c :: rest) then
      match matchTail ((c :: rest).drop beginSentinel.data.length) with
      | some r => some r
      | none => findBeginMatch rest
    else findBeginMatch rest

/-- Model of the JavaScript `line.match` call on the begin-line regex, returning the
two captures when the regex matches. -/
def matchEditableBegin (line : String) : Option (String × String) :=
  findBeginMatch line.data

/-- Title and description extracted from a begin line: the trimmed regex
captures when the regex matches, the defaults otherwise — exactly the
`if (match) ... else ...` of the parse effect. -/
def beginTitleDesc (line : String) : String × String :=
  match matchEditableBegin line with
  | some (t, d) => (jsTrim t, jsTrim d)
  | none => ("Editable Section", "This section can be modified")

/-! ### The region parser (`CodePlaygroundView.tsx`, lines 43–77) -/

/-- The `EditableRegion` record of `CodePlaygroundView.tsx` (same field order). -/
structure Region where
  start : Nat
  «end» : Nat
  description : String
  title : String
deriving DecidableEq, Repr

/-- The mutable state of the parse loop: the pushed regions and the
`currentStart` / `currentTitle` / `currentDescription` variables. -/
structure ScanState where
  regions : List Region
  currentStart : Option Nat
  currentTitle : String
  currentDescription : String
deriving DecidableEq, Repr

/-- Initial loop state. -/
def initScan : ScanState := ⟨[], none, "", ""⟩

/-- One iteration of `lines.forEach((line, index) => ...)` in
`CodePlaygroundView.tsx`: a line containing the begin sentinel sets
`currentStart = index + 1` and records title/description; otherwise a line
containing the end sentinel, when a region is open, pushes the region
record (start = currentStart, end = index) with the saved title and
description, and resets. -/
def scanLine (index : Nat) (st : ScanState) (line : String) : ScanState :=
  if strIncludes line beginSentinel then
    let td := beginTitleDesc line
    { st with currentStart := some (index + 1),
              currentTitle := td.1, currentDescription := td.2 }
  else if strIncludes line endSentinel then
    match st.currentStart with
    | some s =>
      { regions := st.regions ++ [⟨s, index, st.currentDescription, st.currentTitle⟩],
        currentStart := none, currentTitle := "", currentDescription := "" }
    | none => st
  else st

/-- The whole `forEach` loop, threading the 0-based index. -/
def scanLines : Nat → ScanState → List String → ScanState
  | _, st, [] => st
  | index, st, l :: ls => scanLines (index + 1) (scanLine index st l) ls

/-- Regions parsed from a list of lines. -/
def parseLines (lines : List String) : List Region :=
  (scanLines 0 initScan lines).regions

/-- The region-parse effect of `CodePlaygroundView.tsx`:
`code.split("\n")` then the `forEach` scan. -/
def parseRegions (code : String) : List Region :=
  parseLines (jsSplitNewline code)

/-! ### The region parser of `CodeEditingView.tsx` (lines 22–41)

Identical scan, but its regions carry no title/description. -/

/-- Record type of the plain span objects pushed by `CodeEditingView.tsx`. -/
structure RegionSpan where
  start : Nat
  «end» : Nat
deriving DecidableEq, Repr

/-- One iteration of the `CodeEditingView.tsx` scan: state is the pushed
spans plus `currentStart`. -/
def scanLineEditing (index : Nat) (st : List RegionSpan × Option Nat)
    (line : String) : List RegionSpan × Option Nat :=
  if strIncludes line beginSentinel then
    (st.1, some (index + 1))
  else if strIncludes line endSentinel then
    match st.2 with
    | some s => (st.1 ++ [⟨s, index⟩], none)
    | none => st
  else st

/-- The `CodeEditingView.tsx` scan loop. -/
def scanLinesEditing : Nat → List RegionSpan × Option Nat → List String →
    List RegionSpan × Option Nat
  | _, st, [] => st
  | index, st, l :: ls => scanLinesEditing (index + 1) (scanLineEditing index st l) ls

/-- Regions parsed by `CodeEditingView.tsx` from a list of lines. -/
def parseLinesEditing (lines : List String) : List RegionSpan :=
  (scanLinesEditing 0 ([], none) lines).1

/-- The region-parse effect of `CodeEditingView.tsx`. -/
def parseRegionsEditing (code : String) : List RegionSpan :=
  parseLinesEditing (jsSplitNewline code)

/-! ### Clamping to the document (`validatedRegions`, lines 84–92)

The second effect recomputes `validatedRegions` from the parsed regions and
the model's `totalLines`: each bound is clamped by
`Math.min(Math.max(1, x), totalLines)` and regions with `start > end` are
filtered out. -/

/-- The `validatedRegions` map/filter of `CodePlaygroundView.tsx`. -/
def clampRegions (totalLines : Nat) (regions : List Region) : List Region :=
  (regions.map fun r =>
      { r with start := min (max 1 r.start) totalLines,
               «end» := min (max 1 r.«end») totalLines }).filter
    fun r => decide (r.start ≤ r.«end»)

/-! ### The edit guard (`onKeyDown` handler, lines 156–210) -/

/-- Test whether a cursor line lies inside some validated region
(`isPositionEditable`; only the line number of the position is consulted). -/
def isPositionEditable (regions : List Region) (lineNumber : Nat) : Bool :=
  regions.any fun r => decide (lineNumber ≥ r.start) && decide (lineNumber ≤ r.«end»)

/-- A monaco selection, reduced to the fields the guard reads.  For an
empty selection (equal start and end positions) the caret position returned
by `getPosition()` is that common position. -/
structure Sel where
  startLineNumber : Nat
  startColumn : Nat
  endLineNumber : Nat
  endColumn : Nat
deriving DecidableEq, Repr

/-- Model of `selection.isEmpty()`: start and end positions coincide. -/
def Sel.isEmptySel (s : Sel) : Bool :=
  s.startLineNumber == s.endLineNumber && s.startColumn == s.endColumn

/-- The `selections.every(...)` check of the `onKeyDown` handler: an empty
selection is allowed iff its caret line is editable, a proper selection iff
some single region contains its whole line span. -/
def isEditAllowed (regions : List Region) (sels : List Sel) : Bool :=
  sels.all fun s =>
    if s.isEmptySel then
      isPositionEditable regions s.endLineNumber
    else
      regions.any fun r =>
        decide (s.startLineNumber ≥ r.start) && decide (s.endLineNumber ≤ r.«end»)

/-! ### Monaco key codes (values of the `monaco.KeyCode` enum used by the
guard; the enum is part of the monaco-editor dependency). -/

namespace KeyCode

def Backspace : Nat := 1
def Tab : Nat := 2
def Enter : Nat := 3
def Shift : Nat := 4
def Ctrl : Nat := 5
def Alt : Nat := 6
def Space : Nat := 10
def LeftArrow : Nat := 15
def UpArrow : Nat := 16
def RightArrow : Nat := 17
def DownArrow : Nat := 18
def Delete : Nat := 20
def Digit0 : Nat := 21
def KeyV : Nat := 52
def KeyZ : Nat := 56

end KeyCode

/-- A monaco keyboard event, reduced to the fields the guard reads. -/
structure KeyEvent where
  keyCode : Nat
  ctrlKey : Bool
  altKey : Bool
  metaKey : Bool
deriving DecidableEq, Repr

/-- The `isEditingKey` expression of the `onKeyDown` handler: backspace,
delete, enter, tab, Ctrl+V, or an unmodified key code in the
`Digit0 ..= KeyZ` range. -/
def isEditingKey (e : KeyEvent) : Bool :=
  e.keyCode == KeyCode.Backspace ||
  e.keyCode == KeyCode.Delete ||
  e.keyCode == KeyCode.Enter ||
  e.keyCode == KeyCode.Tab ||
  (e.ctrlKey && e.keyCode == KeyCode.KeyV) ||
  (!e.ctrlKey && !e.altKey && !e.metaKey &&
    decide (e.keyCode ≥ KeyCode.Digit0) && decide (e.keyCode ≤ KeyCode.KeyZ))

/-- Whether the `onKeyDown` handler calls `preventDefault` (and
`stopPropagation`): only when the edit is not allowed and the key is one of
the gated editing keys. -/
def keyDownPreventsDefault (regions : List Region) (sels : List Sel)
    (e : KeyEvent) : Bool :=
  !isEditAllowed regions sels && isEditingKey e

/-! ### The paste handler (`onDidPaste`, lines 212–219) -/

/-- What the `onDidPaste` handler does after a paste has been applied. -/
inductive PasteReaction where
  | undoPaste
  | noAction
deriving DecidableEq, Repr

/-- The `onDidPaste` handler: read the post-paste cursor position (possibly
null); when it exists and is not editable, trigger a single `undo`. -/
def onDidPaste (regions : List Region) (position : Option Nat) : PasteReaction :=
  match position with
  | some line =>
    if isPositionEditable regions line then PasteReaction.noAction
    else PasteReaction.undoPaste
  | none => PasteReaction.noAction

/-! ### Line descriptions (`types/workshop.ts`, hover provider and
decorations, and the `WorkshopViewer.tsx` mouse-move lookup) -/

/-- The `ImageData` record of `types/workshop.ts` (optional fields are
options). -/
structure ImageData where
  url : String
  caption : Option String
  altText : Option String
  width : Option Nat
  height : Option Nat
deriving DecidableEq, Repr

/-- The `LineDescription` record of `types/workshop.ts`. -/
structure LineDescription where
  lines : List Nat
  content : String
  image : Option ImageData
deriving DecidableEq, Repr

/-- The lookup shared by `createLineDescriptionHoverProvider` and the
`onMouseMove` handler of `WorkshopViewer.tsx`:
`lineDescriptions.find((desc) => desc.lines.includes(lineNumber))`,
`none` when no description's line list contains the line. -/
def findDescriptionAt (lineNumber : Nat)
    (lineDescriptions : List LineDescription) : Option LineDescription :=
  lineDescriptions.find? fun desc => desc.lines.contains lineNumber

/-- A monaco range literal `(startLineNumber, startColumn, endLineNumber,
endColumn)`. -/
structure DecoRange where
  startLineNumber : Nat
  startColumn : Nat
  endLineNumber : Nat
  endColumn : Nat
deriving DecidableEq, Repr

/-- One delta decoration produced by `createLineDescriptionDecorations`,
with the constant styling options spelled out. -/
structure LineDecoration where
  range : DecoRange
  isWholeLine : Bool
  className : String
  linesDecorationsClassName : String
  overviewRulerColor : String
  minimapColor : String
deriving DecidableEq, Repr

/-- The decoration object built for one member line of a description's
line list. -/
def lineDescriptionDecoration (lineNumber : Nat) : LineDecoration :=
  { range := ⟨lineNumber, 1, lineNumber, 1⟩,
    isWholeLine := true,
    className := "bg-info bg-opacity-10",
    linesDecorationsClassName := "border-l-4 border-info",
    overviewRulerColor := "rgb(34, 211, 238)",
    minimapColor := "rgb(34, 211, 238)" }

/-- Model of `createLineDescriptionDecorations` from the workshop helpers:
`lineDescriptions.flatMap((desc) => desc.lines.map(...))`. -/
def createLineDescriptionDecorations
    (lineDescriptions : List LineDescription) : List LineDecoration :=
  (lineDescriptions.map fun desc => desc.lines.map lineDescriptionDecoration).flatten

/-! ### Well-paired sentinel blocks

Specification-side vocabulary used to state the claims about correctly
paired inputs: a block is some plain padding, one begin line, a plain body,
and one end line. -/

/-- A line with no sentinel in it. -/
def PlainStr (l : String) : Prop :=
  strIncludes l beginSentinel = false ∧ strIncludes l endSentinel = false

/-- One correctly paired sentinel block together with the plain lines that
precede it. -/
structure Block where
  pre : List String
  beginLine : String
  body : List String
  endLine : String

/-- The lines of a block, in source order. -/
def Block.lines (b : Block) : List String :=
  b.pre ++ b.beginLine :: (b.body ++ [b.endLine])

/-- Well-formedness of a block: padding and body are plain, the begin line
holds exactly the begin sentinel, the end line exactly the end sentinel. -/
def Block.WF (b : Block) : Prop :=
  (∀ l ∈ b.pre, PlainStr l) ∧
  strIncludes b.beginLine beginSentinel = true ∧
  strIncludes b.beginLine endSentinel = false ∧
  (∀ l ∈ b.body, PlainStr l) ∧
  strIncludes b.endLine endSentinel = true ∧
  strIncludes b.endLine beginSentinel = false

instance (l : String) : Decidable (PlainStr l) :=
  inferInstanceAs (Decidable (strIncludes l beginSentinel = false ∧
    strIncludes l endSentinel = false))

instance (b : Block) : Decidable b.WF := by
  unfold Block.WF
  infer_instance

/-- The lines of a list of blocks, concatenated in source order. -/
def blocksLines (bs : List Block) : List String :=
  (bs.map Block.lines).flatten

/-- The region the parser pushes for a block whose first line sits at
0-based index `index`. -/
def regionOf (index : Nat) (b : Block) : Region :=
  ⟨index + b.pre.length + 1, index + b.pre.length + 1 + b.body.length,
   (beginTitleDesc b.beginLine).2, (beginTitleDesc b.beginLine).1⟩

/-- The regions the parser pushes for a list of blocks starting at 0-based
index `index`. -/
def expectedRegions : Nat → List Block → List Region
  | _, [] => []
  | index, b :: bs => regionOf index b :: expectedRegions (index + b.lines.length) bs

/-- Forget the title/description of a playground region, leaving the span
tracked by `CodeEditingView.tsx`. -/
def Region.toSpan (r : Region) : RegionSpan := ⟨r.start, r.«end»⟩

/-! ## Lemmas about the scan loop -/

/-- A plain line leaves the loop state unchanged. -/
theorem scanLine_plain (index : Nat) (st : ScanState) (l : String)
    (h : PlainStr l) : scanLine index st l = st := by
  simp [scanLine, h.1, h.2]

/-- Plain lines leave the loop state unchanged. -/
theorem scanLines_plain (ls : List String) (index : Nat) (st : ScanState)
    (h : ∀ l ∈ ls, PlainStr l) : scanLines index st ls = st := by
  induction ls generalizing index st with
  | nil => rfl
  | cons l ls ih =>
    rw [scanLines, scanLine_plain index st l (h l (by simp))]
    exact ih (index + 1) st fun x hx => h x (by simp [hx])

/-- Splitting the scan of a concatenation of line lists. -/
theorem scanLines_append (xs ys : List String) (index : Nat) (st : ScanState) :
    scanLines index st (xs ++ ys)
      = scanLines (index + xs.length) (scanLines index st xs) ys := by
  induction xs generalizing index st with
  | nil => simp [scanLines]
  | cons x xs ih =>
    rw [List.cons_append, scanLines, scanLines, ih]
    have h : index + 1 + xs.length = index + (x :: xs).length := by
      simp; omega
    rw [h]

/-- The next state of one step depends on the accumulated regions only by
appending to them. -/
theorem scanLine_frame (index : Nat) (rs : List Region) (c : Option Nat)
    (t d : String) (l : String) :
    scanLine index ⟨rs, c, t, d⟩ l =
      ⟨rs ++ (scanLine index ⟨[], c, t, d⟩ l).regions,
       (scanLine index ⟨[], c, t, d⟩ l).currentStart,
       (scanLine index ⟨[], c, t, d⟩ l).currentTitle,
       (scanLine index ⟨[], c, t, d⟩ l).currentDescription⟩ := by
  cases c <;>
    by_cases h1 : strIncludes l beginSentinel = true <;>
      by_cases h2 : strIncludes l endSentinel = true <;>
        simp [scanLine, h1, h2]

/-- The whole scan depends on the initially accumulated regions only by
appending to them. -/
theorem scanLines_frame (ls : List String) (index : Nat) (rs : List Region)
    (c : Option Nat) (t d : String) :
    scanLines index ⟨rs, c, t, d⟩ ls =
      ⟨rs ++ (scanLines index ⟨[], c, t, d⟩ ls).regions,
       (scanLines index ⟨[], c, t, d⟩ ls).currentStart,
       (scanLines index ⟨[], c, t, d⟩ ls).currentTitle,
       (scanLines index ⟨[], c, t, d⟩ ls).currentDescription⟩ := by
  induction ls generalizing index rs c t d with
  | nil => simp [scanLines]
  | cons l ls ih =>
    rw [scanLines, scanLines, scanLine_frame]
    cases h : scanLine index ⟨[], c, t, d⟩ l with
    | mk rs1 c1 t1 d1 =>
      rw [ih (index + 1) (rs ++ rs1) c1 t1 d1, ih (index + 1) rs1 c1 t1 d1]
      simp

/-- A step on a line with no end sentinel pushes no region. -/
theorem scanLine_regions_noEnd (index : Nat) (st : ScanState) (l : String)
    (h : strIncludes l endSentinel = false) :
    (scanLine index st l).regions = st.regions := by
  by_cases h1 : strIncludes l beginSentinel = true <;> simp [scanLine, h1, h]

/-- Scanning lines none of which holds the end sentinel pushes no region. -/
theorem scanLines_regions_noEnd (ls : List String) (index : Nat) (st : ScanState)
    (h : ∀ l ∈ ls, strIncludes l endSentinel = false) :
    (scanLines index st ls).regions = st.regions := by
  induction ls generalizing index st with
  | nil => rfl
  | cons l ls ih =>
    rw [scanLines, ih (index + 1) _ fun x hx => h x (by simp [hx]),
      scanLine_regions_noEnd index st l (h l (by simp))]

/-- Scanning one well-formed block from any open/closed state pushes
exactly the block region and closes the accumulator. -/
theorem scan_block (b : Block) (index : Nat) (rs : List Region)
    (c : Option Nat) (t d : String) (hwf : b.WF) :
    scanLines index ⟨rs, c, t, d⟩ b.lines
      = ⟨rs ++ [regionOf index b], none, "", ""⟩ := by
  obtain ⟨hpre, hb1, hb2, hbody, he1, he2⟩ := hwf
  rw [Block.lines, scanLines_append, scanLines_plain b.pre index _ hpre, scanLines]
  have hbl : scanLine (index + b.pre.length) ⟨rs, c, t, d⟩ b.beginLine
      = ⟨rs, some (index + b.pre.length + 1),
          (beginTitleDesc b.beginLine).1, (beginTitleDesc b.beginLine).2⟩ := by
    simp [scanLine, hb1]
  rw [hbl, scanLines_append, scanLines_plain b.body _ _ hbody, scanLines, scanLines]
  simp [scanLine, he1, he2, regionOf]

/-- Scanning a list of well-formed blocks from a closed state pushes
exactly the expected regions. -/
theorem scan_blocks (bs : List Block) (index : Nat) (rs : List Region)
    (h : ∀ b ∈ bs, b.WF) :
    scanLines index ⟨rs, none, "", ""⟩ (blocksLines bs)
      = ⟨rs ++ expectedRegions index bs, none, "", ""⟩ := by
  induction bs generalizing index rs with
  | nil => simp [blocksLines, scanLines, expectedRegions]
  | cons b bs ih =>
    have hbl : blocksLines (b :: bs) = b.lines ++ blocksLines bs := by
      simp [blocksLines]
    rw [hbl, scanLines_append, scan_block b index rs none ("") ("") (h b (by simp)),
      ih (index + b.lines.length) (rs ++ [regionOf index b])
        (fun x hx => h x (by simp [hx]))]
    simp [expectedRegions]

/-! ## The two parsers agree on spans -/

/-- One step of the `CodeEditingView.tsx` scan is the playground step with
titles erased. -/
theorem scanLineEditing_eq (index : Nat) (st : ScanState) (l : String) :
    scanLineEditing index (st.regions.map Region.toSpan, st.currentStart) l
      = ((scanLine index st l).regions.map Region.toSpan,
         (scanLine index st l).currentStart) := by
  cases hc : st.currentStart <;>
    by_cases h1 : strIncludes l beginSentinel = true <;>
      by_cases h2 : strIncludes l endSentinel = true <;>
        simp [scanLine, scanLineEditing, h1, h2, hc, Region.toSpan]

/-- The whole `CodeEditingView.tsx` scan is the playground scan with titles
erased. -/
theorem scanLinesEditing_eq (ls : List String) (index : Nat) (st : ScanState) :
    scanLinesEditing index (st.regions.map Region.toSpan, st.currentStart) ls
      = ((scanLines index st ls).regions.map Region.toSpan,
         (scanLines index st ls).currentStart) := by
  induction ls generalizing index st with
  | nil => rfl
  | cons l ls ih =>
    rw [scanLinesEditing, scanLineEditing_eq, ih (index + 1) (scanLine index st l),
      scanLines]

/-- The regions of `CodeEditingView.tsx` are exactly the playground regions
without their titles and descriptions. -/
theorem parseLinesEditing_eq (lines : List String) :
    parseLinesEditing lines = (parseLines lines).map Region.toSpan := by
  have h := scanLinesEditing_eq lines 0 initScan
  simp [initScan] at h
  simp [parseLinesEditing, parseLines, initScan, h]

/-! ## Disjointness invariant of the scan -/

/-- Invariant of the loop: if the accumulated regions are strictly ordered,
end before the current index, and end before any open start, then the final
region list is strictly ordered. -/
theorem scan_pairwise (ls : List String) (index : Nat) (st : ScanState)
    (h1 : st.regions.Pairwise fun r s => r.«end» < s.start)
    (h2 : ∀ r ∈ st.regions, r.«end» < index)
    (h3 : ∀ s, st.currentStart = some s → ∀ r ∈ st.regions, r.«end» < s) :
    (scanLines index st ls).regions.Pairwise fun r s => r.«end» < s.start := by
  induction ls generalizing index st with
  | nil => exact h1
  | cons l ls ih =>
    rw [scanLines]
    by_cases hb : strIncludes l beginSentinel = true
    · refine ih (index + 1) _ ?_ ?_ ?_ <;> simp [scanLine, hb]
      · exact h1
      · intro r hr
        exact Nat.lt_succ_of_lt (h2 r hr)
      · intro r hr
        exact Nat.lt_succ_of_lt (h2 r hr)
    · by_cases he : strIncludes l endSentinel = true
      · cases hc : st.currentStart with
        | none =>
          refine ih (index + 1) _ ?_ ?_ ?_ <;> simp [scanLine, hb, he, hc]
          · exact h1
          · intro r hr
            exact Nat.lt_succ_of_lt (h2 r hr)
        | some s =>
          refine ih (index + 1) _ ?_ ?_ ?_ <;> simp [scanLine, hb, he, hc]
          · rw [List.pairwise_append]
            refine ⟨h1, by simp, ?_⟩
            intro r hr r2 hr2
            simp at hr2
            subst hr2
            exact h3 s hc r hr
          · intro r hr
            rcases hr with hr | hr
            · exact Nat.lt_succ_of_lt (h2 r hr)
            · subst hr
              exact Nat.lt_succ_self index
      · refine ih (index + 1) _ ?_ ?_ ?_ <;> simp [scanLine, hb, he]
        · exact h1
        · intro r hr
          exact Nat.lt_succ_of_lt (h2 r hr)
        · intro s hs r hr
          exact h3 s hs r hr

/-! ## Shape of the expected regions -/

/-- Length of the block line lists. -/
theorem blocksLines_length_cons (b : Block) (bs : List Block) :
    (blocksLines (b :: bs)).length = b.lines.length + (blocksLines bs).length := by
  simp [blocksLines]

/-- Number of expected regions. -/
theorem expectedRegions_length (bs : List Block) (index : Nat) :
    (expectedRegions index bs).length = bs.length := by
  induction bs generalizing index with
  | nil => rfl
  | cons b bs ih => simp [expectedRegions, ih]

/-- Bounds of the expected regions: every region sits strictly after
`index` and strictly inside the scanned lines. -/
theorem expectedRegions_bounds (bs : List Block) (index : Nat) :
    ∀ r ∈ expectedRegions index bs,
      index < r.start ∧ r.start ≤ r.«end» ∧
        r.«end» + 1 ≤ index + (blocksLines bs).length := by
  induction bs generalizing index with
  | nil => simp [expectedRegions]
  | cons b bs ih =>
    intro r hr
    have hlen : b.lines.length = b.pre.length + 1 + b.body.length + 1 := by
      simp [Block.lines]
      omega
    rw [expectedRegions] at hr
    rcases List.mem_cons.mp hr with hr | hr
    · subst hr
      rw [blocksLines_length_cons]
      refine ⟨by simp [regionOf]; omega, by simp [regionOf], ?_⟩
      simp [regionOf]
      omega
    · obtain ⟨ha, hb2, hc⟩ := ih (index + b.lines.length) r hr
      rw [blocksLines_length_cons]
      exact ⟨by omega, hb2, by omega⟩

/-- The expected regions are strictly ordered and disjoint. -/
theorem expectedRegions_pairwise (bs : List Block) (index : Nat) :
    (expectedRegions index bs).Pairwise fun r s => r.«end» < s.start := by
  induction bs generalizing index with
  | nil => simp [expectedRegions]
  | cons b bs ih =>
    rw [expectedRegions, List.pairwise_cons]
    refine ⟨?_, ih (index + b.lines.length)⟩
    intro r hr
    have h1 := (expectedRegions_bounds bs (index + b.lines.length) r hr).1
    have hlen : b.lines.length = b.pre.length + 1 + b.body.length + 1 := by
      simp [Block.lines]
      omega
    simp [regionOf]
    omega

/-! ## Claim C1 -/

/-- C1, counterexample: on the text whose line 2 is
`// @editable-begin Title - Desc` and whose line 6 is `// @editable-end`,
the parser returns the single region with start = 2 (the 1-indexed line of
the begin sentinel itself, from `currentStart = index + 1` with 0-based
`index`), not start = 3 as claimed; end = 5 and the title and description
are as claimed. -/
theorem c1_counterexample :
    parseRegions ("x\n// @editable-begin Title - Desc\na\nb\nc\n// @editable-end")
        = [⟨2, 5, "Desc", "Title"⟩] ∧
    parseRegions ("x\n// @editable-begin Title - Desc\na\nb\nc\n// @editable-end")
        ≠ [⟨3, 5, "Desc", "Title"⟩] := by
  decide

/-- C1, amended: for input lines whose line 2 is
`// @editable-begin Title - Desc`, whose line 6 is `// @editable-end`, and
whose other lines hold no sentinel, parse returns exactly one region, and
that region is start = 2, end = 5, title `Title`, description `Desc`: the
region begins at the begin-sentinel line itself (1-indexed) and ends at the
line before the end sentinel. -/
theorem c1_region_amended (l1 l3 l4 l5 : String)
    (h1 : PlainStr l1) (h3 : PlainStr l3) (h4 : PlainStr l4) (h5 : PlainStr l5) :
    parseLines [l1, "// @editable-begin Title - Desc", l3, l4, l5, "// @editable-end"]
      = [⟨2, 5, "Desc", "Title"⟩] := by
  have hb : ([l1, "// @editable-begin Title - Desc", l3, l4, l5,
        "// @editable-end"] : List String)
      = blocksLines [⟨[l1], "// @editable-begin Title - Desc", [l3, l4, l5],
          "// @editable-end"⟩] := by
    simp [blocksLines, Block.lines]
  have hwf : ∀ b ∈ [Block.mk [l1] "// @editable-begin Title - Desc" [l3, l4, l5]
      "// @editable-end"], b.WF := by
    intro b hbm
    simp at hbm
    subst hbm
    refine ⟨by simpa using h1,
      (by decide : strIncludes ("// @editable-begin Title - Desc") beginSentinel = true),
      (by decide : strIncludes ("// @editable-begin Title - Desc") endSentinel = false),
      ?_,
      (by decide : strIncludes ("// @editable-end") endSentinel = true),
      (by decide : strIncludes ("// @editable-end") beginSentinel = false)⟩
    simp
    exact ⟨h3, h4, h5⟩
  rw [hb, parseLines, initScan, scan_blocks _ 0 [] hwf]
  simp [expectedRegions, regionOf]
  decide

/-- Witness for `c1_region_amended` at concrete plain lines. -/
theorem c1_region_amended_witness :
    parseLines ["x", "// @editable-begin Title - Desc", "a", "b", "c",
        "// @editable-end"]
      = [⟨2, 5, "Desc", "Title"⟩] :=
  c1_region_amended ("x") ("a") ("b") ("c") (by decide) (by decide) (by decide) (by decide)

/-! ## Claim C2 -/

/-- C2: the selection branch of the guard allows a non-empty selection iff
some single region contains its whole line span; in particular a selection
of lines 4–7 against a single region 3–5 is not allowed, and a selection
that touches two distinct regions of a pairwise-disjoint region list is
never allowed. -/
theorem c2_range_editable :
    (∀ (regions : List Region) (s : Sel), s.isEmptySel = false →
        (isEditAllowed regions [s] = true ↔
          ∃ r ∈ regions, r.start ≤ s.startLineNumber ∧
            s.endLineNumber ≤ r.«end»)) ∧
    isEditAllowed [⟨3, 5, "d", "t"⟩] [⟨4, 1, 7, 1⟩] = false ∧
    (∀ (regions : List Region) (s : Sel) (r1 r2 : Region),
        s.isEmptySel = false →
        s.startLineNumber ≤ s.endLineNumber →
        regions.Pairwise (fun r q => r.«end» < q.start ∨ q.«end» < r.start) →
        r1 ∈ regions → r2 ∈ regions → r1 ≠ r2 →
        r1.start ≤ s.endLineNumber → s.startLineNumber ≤ r1.«end» →
        r2.start ≤ s.endLineNumber → s.startLineNumber ≤ r2.«end» →
        isEditAllowed regions [s] = false) := by
  have hiff : ∀ (regions : List Region) (s : Sel), s.isEmptySel = false →
      (isEditAllowed regions [s] = true ↔
        ∃ r ∈ regions, r.start ≤ s.startLineNumber ∧
          s.endLineNumber ≤ r.«end») := by
    intro regions s hs
    simp [isEditAllowed, hs, List.any_eq_true, and_comm]
  refine ⟨hiff, by decide, ?_⟩
  intro regions s r1 r2 hs hab hpw hm1 hm2 hne hr1b hr1a hr2b hr2a
  by_contra hcon
  simp only [Bool.not_eq_false] at hcon
  obtain ⟨r, hrmem, hc1, hc2⟩ := (hiff regions s hs).1 hcon
  have e1 : r = r1 := by
    by_contra hne1
    rcases hpw.forall (fun a b h => h.symm) hrmem hm1 hne1 with hd | hd <;> omega
  have e2 : r = r2 := by
    by_contra hne2
    rcases hpw.forall (fun a b h => h.symm) hrmem hm2 hne2 with hd | hd <;> omega
  exact hne (e1 ▸ e2)

/-- Witness for `c2_range_editable`: a contained selection is allowed, and
a selection touching two disjoint regions is rejected. -/
theorem c2_range_editable_witness :
    isEditAllowed [⟨3, 5, "d", "t"⟩] [⟨3, 1, 5, 9⟩] = true ∧
    isEditAllowed [⟨1, 2, "d", "t"⟩, ⟨4, 5, "d", "t"⟩] [⟨2, 1, 4, 1⟩] = false := by
  constructor
  · exact (c2_range_editable.1 [⟨3, 5, "d", "t"⟩] ⟨3, 1, 5, 9⟩ (by decide)).2
      ⟨⟨3, 5, "d", "t"⟩, by simp, by decide, by decide⟩
  · exact c2_range_editable.2.2 [⟨1, 2, "d", "t"⟩, ⟨4, 5, "d", "t"⟩] ⟨2, 1, 4, 1⟩
      ⟨1, 2, "d", "t"⟩ ⟨4, 5, "d", "t"⟩ (by decide) (by decide) (by decide)
      (by simp) (by simp) (by decide) (by decide) (by decide) (by decide) (by decide)

/-! ## Claim C3 -/

/-- C3: for input lines made of well-paired, non-nested sentinel blocks and
otherwise plain lines, parse returns exactly one region per block (the
expected ones, in block order), each with 1 ≤ start ≤ end ≤ line count, and
the region list is strictly ascending by start line. -/
theorem c3_well_paired (bs : List Block) (post : List String)
    (hb : ∀ b ∈ bs, b.WF) (hpost : ∀ l ∈ post, PlainStr l) :
    parseLines (blocksLines bs ++ post) = expectedRegions 0 bs ∧
    (parseLines (blocksLines bs ++ post)).length = bs.length ∧
    (∀ r ∈ parseLines (blocksLines bs ++ post),
        1 ≤ r.start ∧ r.start ≤ r.«end» ∧
          r.«end» ≤ (blocksLines bs ++ post).length) ∧
    (parseLines (blocksLines bs ++ post)).Pairwise fun r q => r.start < q.start := by
  have hmain : parseLines (blocksLines bs ++ post) = expectedRegions 0 bs := by
    rw [parseLines, initScan, scanLines_append, scan_blocks bs 0 [] hb,
      scanLines_plain post _ _ hpost]
    simp
  refine ⟨hmain, ?_, ?_, ?_⟩
  · rw [hmain, expectedRegions_length]
  · rw [hmain]
    intro r hr
    obtain ⟨hb1, hb2, hb3⟩ := expectedRegions_bounds bs 0 r hr
    refine ⟨by omega, hb2, ?_⟩
    rw [List.length_append]
    omega
  · rw [hmain]
    refine (expectedRegions_pairwise bs 0).imp_of_mem ?_
    intro a b ha2 hb2 hr2
    have h1 := (expectedRegions_bounds bs 0 _ ha2).2.1
    omega

/-- Witness for `c3_well_paired` at one concrete block followed by a plain
line. -/
theorem c3_well_paired_witness :
    parseLines (blocksLines [⟨["x"], "// @editable-begin", [],
        "// @editable-end"⟩] ++ ["y"])
      = expectedRegions 0 [⟨["x"], "// @editable-begin", [], "// @editable-end"⟩] :=
  (c3_well_paired [⟨["x"], "// @editable-begin", [], "// @editable-end"⟩] ["y"]
    (by decide) (by decide)).1

/-! ## Claim C4 -/

/-- C4 (code-bug evidence): with no region, an empty selection at line 1 is
not editable, yet the guard does not prevent the Space key (monaco key code
10, no modifiers), although Space inserts a character; an unmodified letter
key (KeyA, code 31) at the same position is prevented.  The gated set of
`isEditingKey` omits Space and punctuation keys, so not every
content-mutating key is blocked. -/
theorem c4_space_key_passes :
    isEditingKey ⟨KeyCode.Space, false, false, false⟩ = false ∧
    isEditAllowed [] [⟨1, 1, 1, 1⟩] = false ∧
    keyDownPreventsDefault [] [⟨1, 1, 1, 1⟩]
        ⟨KeyCode.Space, false, false, false⟩ = false ∧
    keyDownPreventsDefault [] [⟨1, 1, 1, 1⟩] ⟨31, false, false, false⟩ = true := by
  decide

/-! ## Claim C5 -/

/-- C5: the paste handler, given the post-paste cursor position, triggers
the single undo exactly when that position lies outside every region; in
particular with a region covering lines 3–5 a post-paste cursor on line 7
triggers the revert, and a null position triggers nothing. -/
theorem c5_paste_revert :
    (∀ (regions : List Region) (pos : Nat),
        onDidPaste regions (some pos) = PasteReaction.undoPaste ↔
          ∀ r ∈ regions, ¬(r.start ≤ pos ∧ pos ≤ r.«end»)) ∧
    onDidPaste [⟨3, 5, "d", "t"⟩] (some 7) = PasteReaction.undoPaste ∧
    onDidPaste [] none = PasteReaction.noAction := by
  refine ⟨?_, by decide, by decide⟩
  intro regions pos
  cases h : isPositionEditable regions pos with
  | true =>
    simp only [onDidPaste, h, if_true]
    simp only [isPositionEditable, List.any_eq_true, Bool.and_eq_true,
      decide_eq_true_eq, ge_iff_le] at h
    obtain ⟨r, hr, h1, h2⟩ := h
    constructor
    · intro hfalse
      exact absurd hfalse (by simp)
    · intro hall
      exact absurd ⟨h1, h2⟩ (hall r hr)
  | false =>
    simp only [onDidPaste, h, if_false, Bool.false_eq_true]
    simp only [isPositionEditable, List.any_eq_false, Bool.and_eq_true,
      decide_eq_true_eq, ge_iff_le] at h
    constructor
    · intro _ r hr
      intro hcontra
      exact h r hr ⟨hcontra.1, hcontra.2⟩
    · intro _
      trivial

/-- Witness for `c5_paste_revert`: a post-paste cursor on line 9 outside
the single region 2–4 triggers the undo. -/
theorem c5_paste_revert_witness :
    onDidPaste [⟨2, 4, "d", "t"⟩] (some 9) = PasteReaction.undoPaste :=
  (c5_paste_revert.1 [⟨2, 4, "d", "t"⟩] 9).2 (by decide)

/-! ## Claim C6 -/

/-- C6: lines made of well-paired blocks followed by a suffix that holds a
begin sentinel but no end sentinel parse to exactly the regions of the
paired blocks: the unterminated open region is silently dropped. -/
theorem c6_unterminated (bs : List Block) (suf : List String)
    (hb : ∀ b ∈ bs, b.WF)
    (hnoend : ∀ l ∈ suf, strIncludes l endSentinel = false)
    (_hbegin : ∃ l ∈ suf, strIncludes l beginSentinel = true) :
    parseLines (blocksLines bs ++ suf) = expectedRegions 0 bs ∧
    parseLines (blocksLines bs ++ suf) = parseLines (blocksLines bs) ∧
    (parseLines (blocksLines bs ++ suf)).length = bs.length := by
  have hmain : parseLines (blocksLines bs ++ suf) = expectedRegions 0 bs := by
    rw [parseLines, initScan, scanLines_append, scan_blocks bs 0 [] hb,
      scanLines_regions_noEnd suf _ _ hnoend]
    simp
  have hblocks : parseLines (blocksLines bs) = expectedRegions 0 bs := by
    rw [parseLines, initScan, scan_blocks bs 0 [] hb]
    simp
  exact ⟨hmain, by rw [hmain, hblocks], by rw [hmain, expectedRegions_length]⟩

/-- Witness for `c6_unterminated`: one paired block followed by a lone
begin sentinel still yields exactly the block region. -/
theorem c6_unterminated_witness :
    parseLines (blocksLines [⟨["x"], "// @editable-begin", [],
        "// @editable-end"⟩] ++ ["// @editable-begin T - D"])
      = expectedRegions 0 [⟨["x"], "// @editable-begin", [], "// @editable-end"⟩] :=
  (c6_unterminated [⟨["x"], "// @editable-begin", [], "// @editable-end"⟩]
    ["// @editable-begin T - D"] (by decide) (by decide)
    ⟨"// @editable-begin T - D", by simp, by decide⟩).1

/-! ## Claim C7 -/

/-- C7: for a region with 1 ≤ start ≤ end and a document of at least one
line, clamping is the identity when the region sits inside the document,
truncates only the end (keeping start, title and description) when the
region reaches past the last line, and drops any region whose clamped start
exceeds its clamped end. -/
theorem c7_clamp (r : Region) (L : Nat) (hL : 1 ≤ L) (h1 : 1 ≤ r.start)
    (h2 : r.start ≤ r.«end») :
    (r.«end» ≤ L → clampRegions L [r] = [r]) ∧
    (r.start ≤ L → L < r.«end» → clampRegions L [r] = [{ r with «end» := L }]) ∧
    (min (max 1 r.start) L > min (max 1 r.«end») L → clampRegions L [r] = []) := by
  refine ⟨?_, ?_, ?_⟩
  · intro hend
    have ha : min (max 1 r.start) L = r.start := by
      rw [Nat.max_def, Nat.min_def]
      split_ifs
      all_goals omega
    have hb2 : min (max 1 r.«end») L = r.«end» := by
      rw [Nat.max_def, Nat.min_def]
      split_ifs
      all_goals omega
    simp [clampRegions, ha, hb2, h2]
  · intro hs hl
    have ha : min (max 1 r.start) L = r.start := by
      rw [Nat.max_def, Nat.min_def]
      split_ifs
      all_goals omega
    have hb2 : min (max 1 r.«end») L = L := by
      rw [Nat.max_def, Nat.min_def]
      split_ifs
      all_goals omega
    simp [clampRegions, ha, hb2, hs]
  · intro hcon
    exfalso
    have e1 : max 1 r.start ≤ max 1 r.«end» := by
      rw [Nat.max_def, Nat.max_def]
      split_ifs
      all_goals omega
    have e2 : min (max 1 r.start) L ≤ min (max 1 r.«end») L :=
      min_le_min e1 (le_refl L)
    omega

/-- Witness for `c7_clamp`: the region 2–4 is truncated to 2–3 by a
3-line document and kept whole by a 9-line document. -/
theorem c7_clamp_witness :
    clampRegions 3 [⟨2, 4, "d", "t"⟩] = [⟨2, 3, "d", "t"⟩] ∧
    clampRegions 9 [⟨2, 4, "d", "t"⟩] = [⟨2, 4, "d", "t"⟩] :=
  ⟨(c7_clamp ⟨2, 4, "d", "t"⟩ 3 (by decide) (by decide) (by decide)).2.1
      (by decide) (by decide),
   (c7_clamp ⟨2, 4, "d", "t"⟩ 9 (by decide) (by decide) (by decide)).1 (by decide)⟩

/-! ## First-match lemma shared by the hover lookups -/

/-- JavaScript `Array.prototype.find` returns the first hit: if everything
before `d` misses and `d` hits, the result is `d`. -/
theorem find_first_eq (p : LineDescription → Bool) (pre post : List LineDescription)
    (d : LineDescription) (hd : p d = true) (hpre : ∀ b ∈ pre, p b = false) :
    (pre ++ d :: post).find? p = some d := by
  induction pre with
  | nil =>
    simp [List.find?, hd]
  | cons b pre ih =>
    have hb := hpre b (by simp)
    rw [List.cons_append, List.find?_cons_of_neg _ (by simp [hb])]
    exact ih fun x hx => hpre x (by simp [hx])

/-! ## Claim C8 -/

/-- C8: the description lookup returns `none` exactly when no description
contains the queried line, and returns the first description in list order
whose line list contains the line — the earlier of two overlapping
descriptions wins, whatever the rest of their line lists hold. -/
theorem c8_find_first (lineNumber : Nat) (descs : List LineDescription) :
    (findDescriptionAt lineNumber descs = none ↔
      ∀ d ∈ descs, d.lines.contains lineNumber = false) ∧
    (∀ pre d post, descs = pre ++ d :: post →
      d.lines.contains lineNumber = true →
      (∀ b ∈ pre, b.lines.contains lineNumber = false) →
      findDescriptionAt lineNumber descs = some d) := by
  constructor
  · rw [findDescriptionAt, List.find?_eq_none]
    constructor
    · intro h d hd
      simpa using h d hd
    · intro h d hd
      simpa using h d hd
  · intro pre d post heq hd hpre
    rw [findDescriptionAt, heq]
    exact find_first_eq _ pre post d hd hpre

/-- Witness for `c8_find_first`: two descriptions both covering line 2, the
first one (with line list `[2, 2]`) wins over the second (`[2, 5]`). -/
theorem c8_find_first_witness :
    findDescriptionAt 2 [⟨[2, 2], "first", none⟩, ⟨[2, 5], "second", none⟩]
      = some ⟨[2, 2], "first", none⟩ :=
  (c8_find_first 2 [⟨[2, 2], "first", none⟩, ⟨[2, 5], "second", none⟩]).2
    [] ⟨[2, 2], "first", none⟩ [⟨[2, 5], "second", none⟩] rfl (by decide) (by simp)

/-! ## Claim C9 -/

/-- C9, counterexample: a decoration carries only its line range and
constant styling, not a reference to its description.  With two
descriptions both covering line 2, the two produced decorations are
identical, and the hover lookup at line 2 recovers the first description —
so the second decoration's originating description is not recoverable. -/
theorem c9_counterexample :
    createLineDescriptionDecorations [⟨[2], "A", none⟩, ⟨[2], "B", none⟩]
      = [lineDescriptionDecoration 2, lineDescriptionDecoration 2] ∧
    findDescriptionAt 2 [⟨[2], "A", none⟩, ⟨[2], "B", none⟩]
      = some ⟨[2], "A", none⟩ ∧
    (⟨[2], "A", none⟩ : LineDescription) ≠ ⟨[2], "B", none⟩ := by
  decide

/-- C9, amended: `createLineDescriptionDecorations` produces one whole-line
decoration per member of each description's line list (total count = sum of
the list lengths), in description-list then line-list order, each ranged at
its member line; the only back-reference a decoration carries is its line
number, and hovering that line recovers the first description in list order
containing it — the originating description exactly when no earlier
description also covers that line. -/
theorem c9_decorations (descs : List LineDescription) :
    (createLineDescriptionDecorations descs).length
        = (descs.map fun d => d.lines.length).sum ∧
    (createLineDescriptionDecorations descs).map
        (fun dec => dec.range.startLineNumber)
        = (descs.map fun d => d.lines).flatten ∧
    (∀ dec ∈ createLineDescriptionDecorations descs,
        dec = lineDescriptionDecoration dec.range.startLineNumber) ∧
    (∀ pre a post lineNumber, descs = pre ++ a :: post →
        a.lines.contains lineNumber = true →
        (∀ b ∈ pre, b.lines.contains lineNumber = false) →
        findDescriptionAt lineNumber descs = some a) := by
  refine ⟨?_, ?_, ?_, ?_⟩
  · simp [createLineDescriptionDecorations, List.length_flatten, List.map_map,
      Function.comp_def, List.length_map]
  · simp [createLineDescriptionDecorations, List.map_flatten, List.map_map,
      Function.comp_def, lineDescriptionDecoration]
  · intro dec hdec
    simp [createLineDescriptionDecorations, List.mem_flatten, List.mem_map] at hdec
    obtain ⟨d, hd, n, hn, hdn⟩ := hdec
    rw [← hdn]
    rfl
  · intro pre a post lineNumber heq ha hpre
    rw [findDescriptionAt, heq]
    exact find_first_eq _ pre post a ha hpre

/-- Witness for `c9_decorations`: a single description over lines 3, 5, 7
yields three decorations, and hovering line 5 recovers it. -/
theorem c9_decorations_witness :
    (createLineDescriptionDecorations [⟨[3, 5, 7], "x", none⟩]).length = 3 ∧
    findDescriptionAt 5 [⟨[3, 5, 7], "x", none⟩] = some ⟨[3, 5, 7], "x", none⟩ := by
  constructor
  · simpa using (c9_decorations [⟨[3, 5, 7], "x", none⟩]).1
  · exact (c9_decorations [⟨[3, 5, 7], "x", none⟩]).2.2.2 [] ⟨[3, 5, 7], "x", none⟩
      [] 5 rfl (by decide) (by simp)

/-! ## Claim C10 -/

/-- C10: for every input text — malformed sentinels included — both
parsers return a strictly ordered region list in which each region's end
line is strictly below the next region's start line, so no line belongs to
two distinct regions. -/
theorem c10_disjoint (code : String) :
    ((parseRegions code).Pairwise fun r q => r.«end» < q.start) ∧
    ((parseRegionsEditing code).Pairwise fun r q => r.«end» < q.start) ∧
    (∀ r1 ∈ parseRegions code, ∀ r2 ∈ parseRegions code, r1 ≠ r2 →
      ∀ lineNumber : Nat,
        ¬(r1.start ≤ lineNumber ∧ lineNumber ≤ r1.«end» ∧
          r2.start ≤ lineNumber ∧ lineNumber ≤ r2.«end»)) := by
  have hp : (parseRegions code).Pairwise fun r q => r.«end» < q.start := by
    rw [parseRegions, parseLines, initScan]
    refine scan_pairwise (jsSplitNewline code) 0 ⟨[], none, "", ""⟩ (by simp)
      (by simp) ?_
    intro s hs
    simp at hs
  refine ⟨hp, ?_, ?_⟩
  · have hp2 := hp
    rw [parseRegions] at hp2
    rw [parseRegionsEditing, parseLinesEditing_eq, List.pairwise_map]
    exact hp2.imp fun h => h
  · intro r1 hm1 r2 hm2 hne lineNumber hcontra
    have hsym : Symmetric fun r q : Region => r.«end» < q.start ∨ q.«end» < r.start :=
      fun a b h => h.symm
    have hpw2 : (parseRegions code).Pairwise
        fun r q : Region => r.«end» < q.start ∨ q.«end» < r.start :=
      hp.imp fun h => Or.inl h
    rcases hpw2.forall hsym hm1 hm2 hne with hd | hd <;> omega

/-- Witness for `c10_disjoint`: on a text with two regions (lines 1–2 and
4–5), no line — line 2 taken here — belongs to both. -/
theorem c10_disjoint_witness :
    ¬((⟨1, 2, "This section can be modified", "Editable Section"⟩ : Region).start ≤ 2 ∧
      2 ≤ (⟨1, 2, "This section can be modified", "Editable Section"⟩ : Region).«end» ∧
      (⟨4, 5, "This section can be modified", "Editable Section"⟩ : Region).start ≤ 2 ∧
      2 ≤ (⟨4, 5, "This section can be modified", "Editable Section"⟩ : Region).«end») :=
  (c10_disjoint
      ("// @editable-begin\nx\n// @editable-end\n// @editable-begin\ny\n// @editable-end")).2.2
    ⟨1, 2, "This section can be modified", "Editable Section"⟩ (by decide)
    ⟨4, 5, "This section can be modified", "Editable Section"⟩ (by decide)
    (by decide) 2

end AYL
